import Mathlib

/-!
Verification of the ui512md 512-bit multiply/divide engine.

The repository ships the unit-test suite (`ui512mdTests.cpp`) and the C
declarations (`ui512md.h`) of four assembly routines: `mult_u`, `mult_uT64`,
`div_u`, `div_uT64`, together with the primitive layer (`ui512a`/`ui512b`:
zero, set, shift, add, compare) that the tests use as an oracle.  The
routines themselves are not part of the source tree, so they are modelled
here from the specification: 8-word big-endian buffers of 64-bit words,
schoolbook multiplication accumulating word products positionally, and
binary restoring long division (shift-compare-subtract over all 512 bit
positions).  The claims are settled against these models.
-/

set_option maxRecDepth 4000

namespace UI512

/-- Word of the big-integer representation: an unsigned 64-bit value.
`wordBase = 2^64` is the digit base. -/
def wordBase : Nat := 2 ^ 64

/-- Well-formed `Wide512` buffer: exactly 8 words, each a 64-bit value.
Word index 0 is the most significant word (bits 511..448). -/
def wf (a : List Nat) : Prop := a.length = 8 ∧ ∀ w ∈ a, w < wordBase

instance (a : List Nat) : Decidable (wf a) :=
  inferInstanceAs (Decidable (a.length = 8 ∧ ∀ w ∈ a, w < wordBase))

/-- Value represented by a big-endian word buffer. -/
def toNat (a : List Nat) : Nat := a.foldl (fun acc w => acc * wordBase + w) 0

/-- Low `k` words (big-endian) of a natural number. -/
def ofNatAux : Nat → Nat → List Nat
  | 0, _ => []
  | k + 1, n => ofNatAux k (n / wordBase) ++ [n % wordBase]

/-- The 8-word big-endian buffer holding the low 512 bits of `n`. -/
def ofNat (n : Nat) : List Nat := ofNatAux 8 n

/-- Modelled from the spec: primitive-layer `zero_u` (module ui512a, not in
the source tree) fills a `Wide512` buffer with zero words. -/
def zero_u : List Nat := List.replicate 8 0

/-- Modelled from the spec: primitive-layer `set_uT64` (module ui512a, not in
the source tree) sets a `Wide512` buffer from a 64-bit scalar. -/
def set_uT64 (s : Nat) : List Nat := ofNat s

/-- Modelled from the spec: primitive-layer `shl_u` (module ui512b, not in
the source tree) shifts left by `k` bits keeping the low 512 bits; a shift
by 512 or more yields all-zero. -/
def shl_u (a : List Nat) (k : Nat) : List Nat := ofNat (toNat a * 2 ^ k)

/-- Modelled from the spec: primitive-layer `shr_u` (module ui512b, not in
the source tree) shifts right by `k` bits; a shift by 512 or more yields
all-zero. -/
def shr_u (a : List Nat) (k : Nat) : List Nat := ofNat (toNat a / 2 ^ k)

/-- Schoolbook single-pass accumulation: multiply each big-endian word of
`a` by the 64-bit digit `b`, accumulating positionally with carries carried
exactly (base `2^64` long multiplication). -/
def mulDigits (a : List Nat) (b : Nat) : Nat :=
  a.foldl (fun acc w => acc * wordBase + w * b) 0

/-- Schoolbook multiplication of two word buffers: the 8×8 digit products
accumulated across digit positions of the multiplier. -/
def mulWideNat (a b : List Nat) : Nat :=
  b.foldl (fun acc w => acc * wordBase + mulDigits a w) 0

/-- Modelled from the spec: `mult_u` (file ui512md.asm, not in the source
tree) multiplies two 512-bit buffers, producing the low 512 bits in
`product`, the high 512 bits in `overflow`, and the success status 0
(multiplication has no error path). -/
def mult_u (a b : List Nat) : List Nat × List Nat × Int :=
  let p := mulWideNat a b
  (ofNat p, ofNat (p / 2 ^ 512), 0)

/-- Modelled from the spec: `mult_uT64` (file ui512md.asm, not in the source
tree) multiplies a 512-bit buffer by a 64-bit scalar, producing the low 512
bits, a single 64-bit overflow word, and the success status 0. -/
def mult_uT64 (a : List Nat) (b : Nat) : List Nat × Nat × Int :=
  let p := mulDigits a b
  (ofNat p, p / 2 ^ 512, 0)

/-- One step of binary restoring long division: shift the running remainder
left by one bit, bring in the next dividend bit, and if the result reaches
the divisor, subtract it and set the corresponding quotient bit. -/
def divStep (divisor : Nat) (qr : Nat × Nat) (bit : Nat) : Nat × Nat :=
  let r := qr.2 * 2 + bit
  if divisor ≤ r then (qr.1 * 2 + 1, r - divisor) else (qr.1 * 2, r)

/-- Binary long division main loop: after `k` steps the bits of the
dividend from position `w-1` down to `w-k` have been processed,
most-significant first. -/
def divRun (w divisor n : Nat) : Nat → Nat × Nat
  | 0 => (0, 0)
  | k + 1 => divStep divisor (divRun w divisor n k) (n / 2 ^ (w - (k + 1)) % 2)

/-- Modelled from the spec: `div_u` (file ui512md.asm, not in the source
tree) divides a 512-bit dividend by a 512-bit divisor via binary long
division over all 512 bit positions, returning quotient and remainder
buffers and status 0; an all-zero divisor yields all-zero outputs and the
divide-by-zero status -1. -/
def div_u (dividend divisor : List Nat) : List Nat × List Nat × Int :=
  if toNat divisor = 0 then (ofNat 0, ofNat 0, -1)
  else
    let qr := divRun 512 (toNat divisor) (toNat dividend) 512
    (ofNat qr.1, ofNat qr.2, 0)

/-- Modelled from the spec: `div_uT64` (file ui512md.asm, not in the source
tree) divides a 512-bit dividend by a 64-bit scalar divisor via the same
bit-at-a-time method, the remainder tracked in a single word; a zero
divisor yields an all-zero quotient, zero remainder, and status -1. -/
def div_uT64 (dividend : List Nat) (divisor : Nat) : List Nat × Nat × Int :=
  if divisor = 0 then (ofNat 0, 0, -1)
  else
    let qr := divRun 512 divisor (toNat dividend) 512
    (ofNat qr.1, qr.2, 0)

/-- Read an 8-word buffer from word-addressed memory. -/
def readBuf (mem : Nat → Nat) (base : Nat) : List Nat :=
  (List.range 8).map fun i => mem (base + i)

/-- Write a word buffer into word-addressed memory at `base`. -/
def writeBuf (mem : Nat → Nat) (base : Nat) (ws : List Nat) : Nat → Nat :=
  fun addr =>
    if base ≤ addr ∧ addr < base + ws.length then ws.getD (addr - base) (mem addr)
    else mem addr

/-- Modelled from the spec: the buffer-level call of `div_uT64` writing its
quotient in place into caller memory.  Per the spec the outputs are
computed into temporaries from the dividend words read before any write, so
the quotient buffer may alias the dividend buffer. -/
def div_uT64_mem (mem : Nat → Nat) (qa da divisor : Nat) : (Nat → Nat) × Nat × Int :=
  let dividend := readBuf mem da
  let res := div_uT64 dividend divisor
  (writeBuf mem qa res.1, res.2.1, res.2.2)

/-- Decimal-digit extraction loop of the test's use case: repeatedly divide
the dividend buffer by 10 with `div_uT64` (writing the quotient back over
the dividend), prepending each remainder as the next decimal digit, until
the dividend compares equal to zero. -/
def extractDigits : Nat → List Nat → List Nat
  | 0, _ => []
  | fuel + 1, a =>
    if toNat a = 0 then []
    else extractDigits fuel (div_uT64 a 10).1 ++ [(div_uT64 a 10).2.1]

theorem wordBase_pos : 0 < wordBase := by
  rw [wordBase]; positivity

theorem toNat_append (xs : List Nat) (w : Nat) :
    toNat (xs ++ [w]) = toNat xs * wordBase + w := by
  simp [toNat, List.foldl_append]

theorem length_ofNatAux (k n : Nat) : (ofNatAux k n).length = k := by
  induction k generalizing n with
  | zero => rfl
  | succ k ih => simp [ofNatAux, ih]

theorem mem_ofNatAux (k n : Nat) : ∀ w ∈ ofNatAux k n, w < wordBase := by
  induction k generalizing n with
  | zero => simp [ofNatAux]
  | succ k ih =>
    intro w hw
    simp only [ofNatAux, List.mem_append, List.mem_singleton] at hw
    rcases hw with hw | rfl
    · exact ih _ w hw
    · exact Nat.mod_lt _ wordBase_pos

theorem wf_ofNat (n : Nat) : wf (ofNat n) :=
  ⟨length_ofNatAux 8 n, mem_ofNatAux 8 n⟩

theorem toNat_ofNatAux (k n : Nat) : toNat (ofNatAux k n) = n % wordBase ^ k := by
  induction k generalizing n with
  | zero => simp [ofNatAux, toNat, Nat.mod_one]
  | succ k ih =>
    simp only [ofNatAux]
    rw [toNat_append, ih, pow_succ', Nat.mod_mul]
    ring

theorem wordBase_pow_eight : wordBase ^ 8 = 2 ^ 512 := by
  rw [wordBase, ← pow_mul]

theorem toNat_ofNat (n : Nat) (h : n < 2 ^ 512) : toNat (ofNat n) = n := by
  rw [ofNat, toNat_ofNatAux, wordBase_pow_eight, Nat.mod_eq_of_lt h]

theorem toNat_lt_pow (a : List Nat) (h : ∀ w ∈ a, w < wordBase) :
    toNat a < wordBase ^ a.length := by
  induction a using List.reverseRecOn with
  | nil => simp [toNat]
  | append_singleton xs w ih =>
    have hx : toNat xs < wordBase ^ xs.length := by
      refine ih fun v hv => h v ?_
      simp [hv]
    have hw : w < wordBase := h w (by simp)
    rw [toNat_append]
    calc toNat xs * wordBase + w < (toNat xs + 1) * wordBase := by
          have hb : 0 < wordBase := wordBase_pos
          nlinarith
      _ ≤ wordBase ^ xs.length * wordBase := Nat.mul_le_mul_right _ hx
      _ = wordBase ^ (xs ++ [w]).length := by
          rw [← pow_succ]
          simp

theorem toNat_lt (a : List Nat) (h : wf a) : toNat a < 2 ^ 512 := by
  have := toNat_lt_pow a h.2
  rwa [h.1, wordBase_pow_eight] at this

theorem ofNat_toNat (a : List Nat) (h : wf a) : ofNat (toNat a) = a := by
  have main : ∀ b : List Nat, (∀ w ∈ b, w < wordBase) →
      ofNatAux b.length (toNat b) = b := by
    intro b
    induction b using List.reverseRecOn with
    | nil => intro _; rfl
    | append_singleton xs w ih =>
      intro hb
      have hw : w < wordBase := hb w (by simp)
      have hxs : ∀ v ∈ xs, v < wordBase := fun v hv => hb v (by simp [hv])
      have hlen : (xs ++ [w]).length = xs.length + 1 := by simp
      rw [hlen, toNat_append, ofNatAux]
      have hdiv : (toNat xs * wordBase + w) / wordBase = toNat xs := by
        rw [mul_comm, Nat.mul_add_div wordBase_pos]
        simp [Nat.div_eq_of_lt hw]
      have hmod : (toNat xs * wordBase + w) % wordBase = w := by
        rw [Nat.mul_add_mod', Nat.mod_eq_of_lt hw]
      rw [hdiv, hmod, ih hxs]
  rw [ofNat, ← h.1, main a h.2]

theorem mulDigits_eq (a : List Nat) (b : Nat) : mulDigits a b = toNat a * b := by
  induction a using List.reverseRecOn with
  | nil => simp [mulDigits, toNat]
  | append_singleton xs w ih =>
    simp only [mulDigits, List.foldl_append, List.foldl_cons, List.foldl_nil] at *
    rw [ih]
    have : toNat (xs ++ [w]) = toNat xs * wordBase + w := toNat_append xs w
    rw [this]
    ring

theorem mulWideNat_eq (a b : List Nat) : mulWideNat a b = toNat a * toNat b := by
  induction b using List.reverseRecOn with
  | nil => simp [mulWideNat, toNat]
  | append_singleton ys w ih =>
    simp only [mulWideNat, List.foldl_append, List.foldl_cons, List.foldl_nil] at *
    rw [ih, mulDigits_eq, toNat_append]
    ring

theorem divStep_div_mod (d m bit : Nat) (hd : 0 < d) (hbit : bit < 2) :
    divStep d (m / d, m % d) bit = ((2 * m + bit) / d, (2 * m + bit) % d) := by
  have hs : m % d < d := Nat.mod_lt m hd
  have hm : d * (m / d) + m % d = m := Nat.div_add_mod m d
  simp only [divStep]
  by_cases hc : d ≤ m % d * 2 + bit
  · rw [if_pos hc]
    have expand : d * (m / d * 2 + 1) = 2 * (d * (m / d)) + d := by ring
    have key : (2 * m + bit) / d = m / d * 2 + 1 ∧
        (2 * m + bit) % d = m % d * 2 + bit - d :=
      (Nat.div_mod_unique hd).mpr ⟨by omega, by omega⟩
    rw [key.1, key.2]
  · rw [if_neg hc]
    have expand : d * (m / d * 2) = 2 * (d * (m / d)) := by ring
    have key : (2 * m + bit) / d = m / d * 2 ∧
        (2 * m + bit) % d = m % d * 2 + bit :=
      (Nat.div_mod_unique hd).mpr ⟨by omega, by omega⟩
    rw [key.1, key.2]

theorem divRun_eq (w d n : Nat) (hd : 0 < d) (hn : n < 2 ^ w) :
    ∀ k, k ≤ w → divRun w d n k = (n / 2 ^ (w - k) / d, n / 2 ^ (w - k) % d) := by
  intro k
  induction k with
  | zero =>
    intro _
    have h0 : n / 2 ^ w = 0 := Nat.div_eq_of_lt hn
    simp [divRun, h0]
  | succ k ih =>
    intro hk
    have hk' : k ≤ w := by omega
    have hwk : w - k = (w - (k + 1)) + 1 := by omega
    have hhalf : n / 2 ^ (w - k) = n / 2 ^ (w - (k + 1)) / 2 := by
      rw [hwk, Nat.div_div_eq_div_mul, pow_succ]
    have hbit : n / 2 ^ (w - (k + 1)) % 2 < 2 := Nat.mod_lt _ (by norm_num)
    have hrec : 2 * (n / 2 ^ (w - k)) + n / 2 ^ (w - (k + 1)) % 2 =
        n / 2 ^ (w - (k + 1)) := by
      rw [hhalf]
      omega
    rw [divRun, ih hk', divStep_div_mod _ _ _ hd hbit, hrec]

theorem divRun_final (w d n : Nat) (hd : 0 < d) (hn : n < 2 ^ w) :
    divRun w d n w = (n / d, n % d) := by
  have := divRun_eq w d n hd hn w le_rfl
  simpa using this

theorem div_u_spec (a dv : List Nat) (ha : wf a) (hdv : toNat dv ≠ 0) :
    div_u a dv = (ofNat (toNat a / toNat dv), ofNat (toNat a % toNat dv), 0) := by
  rw [div_u, if_neg hdv]
  rw [divRun_final 512 (toNat dv) (toNat a) (Nat.pos_of_ne_zero hdv) (toNat_lt a ha)]

theorem div_uT64_spec (a : List Nat) (d : Nat) (ha : wf a) (hd : d ≠ 0) :
    div_uT64 a d = (ofNat (toNat a / d), toNat a % d, 0) := by
  rw [div_uT64, if_neg hd]
  rw [divRun_final 512 d (toNat a) (Nat.pos_of_ne_zero hd) (toNat_lt a ha)]

theorem ofNat_zero : ofNat 0 = zero_u := by decide

theorem toNat_zero_u : toNat zero_u = 0 := by decide

theorem toNat_set_one : toNat (set_uT64 1) = 1 := by decide

/-- C1: for every 512-bit dividend and every nonzero divisor, division
returns success (status 0) and its outputs satisfy
quotient * divisor + remainder = dividend exactly, with the remainder
strictly less than the divisor; this holds both for `div_u` with a 512-bit
divisor and for `div_uT64` with a 64-bit divisor. -/
theorem div_roundtrip (a dv : List Nat) (b : Nat)
    (ha : wf a) (hdv : wf dv) (hdv0 : toNat dv ≠ 0) (hb : b < wordBase) (hb0 : b ≠ 0) :
    ((div_u a dv).2.2 = 0 ∧
      toNat (div_u a dv).1 * toNat dv + toNat (div_u a dv).2.1 = toNat a ∧
      toNat (div_u a dv).2.1 < toNat dv) ∧
    ((div_uT64 a b).2.2 = 0 ∧
      toNat (div_uT64 a b).1 * b + (div_uT64 a b).2.1 = toNat a ∧
      (div_uT64 a b).2.1 < b) := by
  have hwide := div_u_spec a dv ha hdv0
  have hnarrow := div_uT64_spec a b ha hb0
  have hq : toNat a / toNat dv < 2 ^ 512 :=
    lt_of_le_of_lt (Nat.div_le_self _ _) (toNat_lt a ha)
  have hr : toNat a % toNat dv < 2 ^ 512 :=
    lt_of_le_of_lt (Nat.mod_le _ _) (toNat_lt a ha)
  have hq2 : toNat a / b < 2 ^ 512 :=
    lt_of_le_of_lt (Nat.div_le_self _ _) (toNat_lt a ha)
  refine ⟨⟨?_, ?_, ?_⟩, ?_, ?_, ?_⟩
  · rw [hwide]
  · rw [hwide]
    simp only [toNat_ofNat _ hq, toNat_ofNat _ hr]
    exact Nat.div_add_mod' _ _
  · rw [hwide]
    simp only [toNat_ofNat _ hr]
    exact Nat.mod_lt _ (Nat.pos_of_ne_zero hdv0)
  · rw [hnarrow]
  · rw [hnarrow]
    simp only [toNat_ofNat _ hq2]
    exact Nat.div_add_mod' _ _
  · rw [hnarrow]
    exact Nat.mod_lt _ (Nat.pos_of_ne_zero hb0)

theorem div_roundtrip_wit :
    wf [1, 2, 3, 4, 5, 6, 7, 8] ∧ wf [0, 0, 0, 0, 0, 0, 0, 7] ∧
    toNat [0, 0, 0, 0, 0, 0, 0, 7] ≠ 0 ∧ (10 : Nat) < wordBase ∧ (10 : Nat) ≠ 0 ∧
    (((div_u [1, 2, 3, 4, 5, 6, 7, 8] [0, 0, 0, 0, 0, 0, 0, 7]).2.2 = 0 ∧
      toNat (div_u [1, 2, 3, 4, 5, 6, 7, 8] [0, 0, 0, 0, 0, 0, 0, 7]).1 *
          toNat [0, 0, 0, 0, 0, 0, 0, 7] +
          toNat (div_u [1, 2, 3, 4, 5, 6, 7, 8] [0, 0, 0, 0, 0, 0, 0, 7]).2.1 =
        toNat [1, 2, 3, 4, 5, 6, 7, 8] ∧
      toNat (div_u [1, 2, 3, 4, 5, 6, 7, 8] [0, 0, 0, 0, 0, 0, 0, 7]).2.1 <
        toNat [0, 0, 0, 0, 0, 0, 0, 7]) ∧
     ((div_uT64 [1, 2, 3, 4, 5, 6, 7, 8] 10).2.2 = 0 ∧
      toNat (div_uT64 [1, 2, 3, 4, 5, 6, 7, 8] 10).1 * 10 +
          (div_uT64 [1, 2, 3, 4, 5, 6, 7, 8] 10).2.1 =
        toNat [1, 2, 3, 4, 5, 6, 7, 8] ∧
      (div_uT64 [1, 2, 3, 4, 5, 6, 7, 8] 10).2.1 < 10)) :=
  ⟨by decide, by decide, by decide, by decide, by decide,
    div_roundtrip [1, 2, 3, 4, 5, 6, 7, 8] [0, 0, 0, 0, 0, 0, 0, 7] 10
      (by decide) (by decide) (by decide) (by decide) (by decide)⟩

/-- C2: for every 512-bit dividend, `div_u` with an all-zero divisor
returns the divide-by-zero status -1 and sets both the quotient and the
remainder output buffers to all-zero. -/
theorem div_u_by_zero (a : List Nat) :
    div_u a zero_u = (zero_u, zero_u, -1) := by
  simp only [div_u, toNat_zero_u, if_pos, ofNat_zero]

/-- C3: for every 512-bit value `a` and every shift amount `k` in [0,512),
multiplying `a` by `2^k` with `mult_u` yields product `a` shifted left by
`k` bits and overflow `a` shifted right by `512-k` bits (for `k = 0` the
shift right by 512 yields zero). -/
theorem mult_u_pow2 (a : List Nat) (k : Nat) (ha : wf a) (hk : k < 512) :
    mult_u a (ofNat (2 ^ k)) = (shl_u a k, shr_u a (512 - k), 0) := by
  have hlt : (2 : Nat) ^ k < 2 ^ 512 := Nat.pow_lt_pow_right (by norm_num) hk
  have hb : toNat (ofNat (2 ^ k)) = 2 ^ k := toNat_ofNat _ hlt
  have hsplit : (2 : Nat) ^ 512 = 2 ^ (512 - k) * 2 ^ k := by
    rw [← pow_add]
    congr 1
    omega
  have hdiv : toNat a * 2 ^ k / 2 ^ 512 = toNat a / 2 ^ (512 - k) := by
    rw [hsplit]
    exact Nat.mul_div_mul_right _ _ (by positivity)
  simp only [mult_u, mulWideNat_eq, hb, shl_u, shr_u, hdiv]

theorem mult_u_pow2_wit :
    wf [1, 2, 3, 4, 5, 6, 7, 8] ∧ (5 : Nat) < 512 ∧
    mult_u [1, 2, 3, 4, 5, 6, 7, 8] (ofNat (2 ^ 5)) =
      (shl_u [1, 2, 3, 4, 5, 6, 7, 8] 5, shr_u [1, 2, 3, 4, 5, 6, 7, 8] (512 - 5), 0) :=
  ⟨by decide, by decide, mult_u_pow2 [1, 2, 3, 4, 5, 6, 7, 8] 5 (by decide) (by decide)⟩

/-- C4: for dividend 1 and any nonzero divisor, `div_u` returns success;
the quotient is 0 and the remainder 1 when the divisor is greater than 1,
and the quotient is 1 and the remainder 0 when the divisor equals 1. -/
theorem div_u_one_dividend (dv : List Nat) (hdv : wf dv) (h0 : toNat dv ≠ 0) :
    (div_u (set_uT64 1) dv).2.2 = 0 ∧
    (1 < toNat dv →
      (div_u (set_uT64 1) dv).1 = zero_u ∧ (div_u (set_uT64 1) dv).2.1 = set_uT64 1) ∧
    (toNat dv = 1 →
      (div_u (set_uT64 1) dv).1 = set_uT64 1 ∧ (div_u (set_uT64 1) dv).2.1 = zero_u) := by
  have hs := div_u_spec (set_uT64 1) dv (wf_ofNat 1) h0
  rw [toNat_set_one] at hs
  refine ⟨by rw [hs], ?_, ?_⟩
  · intro hgt
    have hq : 1 / toNat dv = 0 := Nat.div_eq_of_lt hgt
    have hr : 1 % toNat dv = 1 := Nat.mod_eq_of_lt hgt
    rw [hs, hq, hr]
    exact ⟨ofNat_zero, rfl⟩
  · intro heq
    rw [hs, heq]
    exact ⟨rfl, ofNat_zero⟩

theorem div_u_one_dividend_wit :
    wf [0, 0, 0, 0, 0, 0, 0, 5] ∧ toNat [0, 0, 0, 0, 0, 0, 0, 5] ≠ 0 ∧
    ((div_u (set_uT64 1) [0, 0, 0, 0, 0, 0, 0, 5]).2.2 = 0 ∧
     (1 < toNat [0, 0, 0, 0, 0, 0, 0, 5] →
       (div_u (set_uT64 1) [0, 0, 0, 0, 0, 0, 0, 5]).1 = zero_u ∧
       (div_u (set_uT64 1) [0, 0, 0, 0, 0, 0, 0, 5]).2.1 = set_uT64 1) ∧
     (toNat [0, 0, 0, 0, 0, 0, 0, 5] = 1 →
       (div_u (set_uT64 1) [0, 0, 0, 0, 0, 0, 0, 5]).1 = set_uT64 1 ∧
       (div_u (set_uT64 1) [0, 0, 0, 0, 0, 0, 0, 5]).2.1 = zero_u)) :=
  ⟨by decide, by decide,
    div_u_one_dividend [0, 0, 0, 0, 0, 0, 0, 5] (by decide) (by decide)⟩

/-- C5: for every 512-bit value `a` and every 64-bit scalar `b`,
`mult_uT64` produces exactly the low 512 bits of the product, its single
64-bit overflow word equals (after widening) the overflow of `mult_u`
applied to `a` and the 512-bit widening of `b`, and that overflow always
fits in one 64-bit word. -/
theorem mult_uT64_refines (a : List Nat) (b : Nat) (ha : wf a) (hb : b < wordBase) :
    (mult_uT64 a b).1 = (mult_u a (set_uT64 b)).1 ∧
    set_uT64 (mult_uT64 a b).2.1 = (mult_u a (set_uT64 b)).2.1 ∧
    (mult_uT64 a b).2.1 < wordBase := by
  have hb512 : b < 2 ^ 512 := lt_trans hb (by rw [wordBase]; norm_num)
  have hbv : toNat (ofNat b) = b := toNat_ofNat _ hb512
  simp only [mult_uT64, mult_u, set_uT64, mulWideNat_eq, mulDigits_eq, hbv]
  refine ⟨trivial, trivial, ?_⟩
  have hp : toNat a * b < 2 ^ 512 * wordBase := Nat.mul_lt_mul'' (toNat_lt a ha) hb
  have hq := Nat.div_lt_of_lt_mul hp
  rwa [wordBase] at hq ⊢

theorem mult_uT64_refines_wit :
    wf [1, 2, 3, 4, 5, 6, 7, 8] ∧ (2 : Nat) < wordBase ∧
    ((mult_uT64 [1, 2, 3, 4, 5, 6, 7, 8] 2).1 =
       (mult_u [1, 2, 3, 4, 5, 6, 7, 8] (set_uT64 2)).1 ∧
     set_uT64 (mult_uT64 [1, 2, 3, 4, 5, 6, 7, 8] 2).2.1 =
       (mult_u [1, 2, 3, 4, 5, 6, 7, 8] (set_uT64 2)).2.1 ∧
     (mult_uT64 [1, 2, 3, 4, 5, 6, 7, 8] 2).2.1 < wordBase) :=
  ⟨by decide, by decide,
    mult_uT64_refines [1, 2, 3, 4, 5, 6, 7, 8] 2 (by decide) (by decide)⟩

/-- C6: `mult_u` and `mult_uT64` never fail: for every pair of operands
they complete with the success status 0; multiplication has no error
path. -/
theorem mult_never_fails (a b : List Nat) (c : Nat) :
    (mult_u a b).2.2 = 0 ∧ (mult_uT64 a c).2.2 = 0 :=
  ⟨rfl, rfl⟩

/-- C7: for every 512-bit value `a`, `mult_u` of `a` and 1 returns product
exactly equal to `a` and overflow all-zero: multiplication by one is the
identity. -/
theorem mult_u_one (a : List Nat) (ha : wf a) :
    mult_u a (set_uT64 1) = (a, zero_u, 0) := by
  have hz : toNat a / 2 ^ 512 = 0 := Nat.div_eq_of_lt (toNat_lt a ha)
  simp only [mult_u, mulWideNat_eq, toNat_set_one, mul_one, hz, ofNat_zero,
    ofNat_toNat a ha]

theorem mult_u_one_wit :
    wf [1, 2, 3, 4, 5, 6, 7, 8] ∧
    mult_u [1, 2, 3, 4, 5, 6, 7, 8] (set_uT64 1) = ([1, 2, 3, 4, 5, 6, 7, 8], zero_u, 0) :=
  ⟨by decide, mult_u_one [1, 2, 3, 4, 5, 6, 7, 8] (by decide)⟩

/-- C10: multiplication is commutative: for every pair of 512-bit operands
`a` and `b`, `mult_u a b` yields the same (product, overflow, status)
triple as `mult_u b a`. -/
theorem mult_u_comm (a b : List Nat) (ha : wf a) (hb : wf b) :
    mult_u a b = mult_u b a := by
  simp only [mult_u, mulWideNat_eq]
  rw [Nat.mul_comm]

theorem mult_u_comm_wit :
    wf [1, 2, 3, 4, 5, 6, 7, 8] ∧ wf [8, 7, 6, 5, 4, 3, 2, 1] ∧
    mult_u [1, 2, 3, 4, 5, 6, 7, 8] [8, 7, 6, 5, 4, 3, 2, 1] =
      mult_u [8, 7, 6, 5, 4, 3, 2, 1] [1, 2, 3, 4, 5, 6, 7, 8] :=
  ⟨by decide, by decide,
    mult_u_comm [1, 2, 3, 4, 5, 6, 7, 8] [8, 7, 6, 5, 4, 3, 2, 1] (by decide) (by decide)⟩

theorem div_uT64_fst_length (a : List Nat) (d : Nat) : (div_uT64 a d).1.length = 8 := by
  by_cases h : d = 0
  · simp [div_uT64, h, ofNat, length_ofNatAux]
  · simp [div_uT64, h, ofNat, length_ofNatAux]

theorem readBuf_writeBuf (mem : Nat → Nat) (base : Nat) (ws : List Nat)
    (h : ws.length = 8) : readBuf (writeBuf mem base ws) base = ws := by
  apply List.ext_getElem
  · simp [readBuf, h]
  · intro i h1 h2
    have hi : i < 8 := by simpa [readBuf] using h1
    simp only [readBuf, List.getElem_map, List.getElem_range, writeBuf]
    have hc : base ≤ base + i ∧ base + i < base + ws.length := by omega
    rw [if_pos hc]
    have hsub : base + i - base = i := by omega
    rw [hsub]
    exact List.getD_eq_getElem ws _ (by omega)

/-- C9: `div_uT64` tolerates in-place aliasing of its quotient output with
its dividend input: for every memory state, every buffer address and every
nonzero 64-bit divisor, the call whose quotient buffer is the very same
buffer as the dividend buffer leaves that buffer holding the same quotient,
and returns the same remainder, as the computation on the pre-call dividend
value (which is what a call with disjoint buffers yields). -/
theorem div_uT64_alias (mem : Nat → Nat) (da d : Nat) (hd : d ≠ 0) :
    readBuf (div_uT64_mem mem da da d).1 da = (div_uT64 (readBuf mem da) d).1 ∧
    (div_uT64_mem mem da da d).2.1 = (div_uT64 (readBuf mem da) d).2.1 := by
  constructor
  · exact readBuf_writeBuf mem da _ (div_uT64_fst_length _ d)
  · rfl

theorem div_uT64_alias_wit :
    (3 : Nat) ≠ 0 ∧
    (readBuf (div_uT64_mem (fun i => i) 4 4 3).1 4 =
       (div_uT64 (readBuf (fun i => i) 4) 3).1 ∧
     (div_uT64_mem (fun i => i) 4 4 3).2.1 =
       (div_uT64 (readBuf (fun i => i) 4) 3).2.1) :=
  ⟨by decide, div_uT64_alias (fun i => i) 4 3 (by decide)⟩

theorem extractDigits_of_zero (fuel : Nat) : extractDigits fuel (ofNat 0) = [] := by
  cases fuel with
  | zero => rfl
  | succ f =>
    have h : toNat (ofNat 0) = 0 := by decide
    simp [extractDigits, h]

theorem extractDigits_step (fuel n : Nat) (h1 : n < 2 ^ 512) (h2 : n ≠ 0)
    (hf : fuel ≠ 0) :
    extractDigits fuel (ofNat n) =
      extractDigits (fuel - 1) (ofNat (n / 10)) ++ [n % 10] := by
  obtain ⟨f, rfl⟩ : ∃ f, fuel = f + 1 := ⟨fuel - 1, by omega⟩
  have ht : toNat (ofNat n) = n := toNat_ofNat n h1
  have hs := div_uT64_spec (ofNat n) 10 (wf_ofNat n) (by norm_num)
  rw [ht] at hs
  simp only [extractDigits, ht, hs, Nat.add_sub_cancel]
  rw [if_neg h2]

/-- C8: starting from the 512-bit value 12345678910111213 and repeatedly
dividing by the scalar 10 with `div_uT64`, taking each remainder as the
next decimal digit until the dividend reaches 0, reconstructs exactly the
decimal digit string "12345678910111213". -/
theorem decimal_digits_use_case :
    extractDigits 17 (ofNat 12345678910111213) =
      [1, 2, 3, 4, 5, 6, 7, 8, 9, 1, 0, 1, 1, 1, 2, 1, 3] := by
  rw [extractDigits_step 17 12345678910111213 (by norm_num) (by norm_num) (by norm_num)]
  norm_num
  rw [extractDigits_step 16 1234567891011121 (by norm_num) (by norm_num) (by norm_num)]
  norm_num
  rw [extractDigits_step 15 123456789101112 (by norm_num) (by norm_num) (by norm_num)]
  norm_num
  rw [extractDigits_step 14 12345678910111 (by norm_num) (by norm_num) (by norm_num)]
  norm_num
  rw [extractDigits_step 13 1234567891011 (by norm_num) (by norm_num) (by norm_num)]
  norm_num
  rw [extractDigits_step 12 123456789101 (by norm_num) (by norm_num) (by norm_num)]
  norm_num
  rw [extractDigits_step 11 12345678910 (by norm_num) (by norm_num) (by norm_num)]
  norm_num
  rw [extractDigits_step 10 1234567891 (by norm_num) (by norm_num) (by norm_num)]
  norm_num
  rw [extractDigits_step 9 123456789 (by norm_num) (by norm_num) (by norm_num)]
  norm_num
  rw [extractDigits_step 8 12345678 (by norm_num) (by norm_num) (by norm_num)]
  norm_num
  rw [extractDigits_step 7 1234567 (by norm_num) (by norm_num) (by norm_num)]
  norm_num
  rw [extractDigits_step 6 123456 (by norm_num) (by norm_num) (by norm_num)]
  norm_num
  rw [extractDigits_step 5 12345 (by norm_num) (by norm_num) (by norm_num)]
  norm_num
  rw [extractDigits_step 4 1234 (by norm_num) (by norm_num) (by norm_num)]
  norm_num
  rw [extractDigits_step 3 123 (by norm_num) (by norm_num) (by norm_num)]
  norm_num
  rw [extractDigits_step 2 12 (by norm_num) (by norm_num) (by norm_num)]
  norm_num
  rw [extractDigits_step 1 1 (by norm_num) (by norm_num) (by norm_num)]
  norm_num
  rw [extractDigits_of_zero 0]

end UI512
